import Mathlib

/-!
Verification of the gomr tool (`main.go`): a shallow embedding of its record
store, its four coordinator operations and its module-root search, together
with theorems settling the specification's claims about them.

Strings are processed through their underlying character lists so that every
definition is executable by the kernel. File-system and process effects are
made explicit: each operation returns the external-tool invocations it makes,
the file contents it writes and the errors it raises.
-/

namespace Gomr

/-- One tracked replace directive; source: `type replace struct` in main.go. -/
structure Replace where
  ModuleName : String
  AbsPath : String
  AddGoMod : Bool
deriving DecidableEq

/-- ASCII whitespace. Stands in for Go's `unicode.IsSpace`, which additionally
accepts a few non-ASCII space code points that never occur in store files. -/
def goIsSpace (c : Char) : Bool :=
  c == ' ' || c == '\t' || c == '\n' || c == (Char.ofNat 11) || c == (Char.ofNat 12) || c == '\r'

/-- Worker for `fields`: splits a character list around runs of whitespace,
accumulating the current (reversed) token in `acc`. -/
def fieldsAux : List Char → List Char → List String
  | [], acc => if acc.isEmpty then [] else [String.mk acc.reverse]
  | c :: cs, acc =>
    if goIsSpace c then
      if acc.isEmpty then fieldsAux cs [] else String.mk acc.reverse :: fieldsAux cs []
    else fieldsAux cs (c :: acc)

/-- Go `strings.Fields`: the whitespace-separated tokens of `s`, in order,
with no empty tokens. -/
def fields (s : String) : List String := fieldsAux s.data []

/-- Worker for `scanLines`. -/
def scanLinesAux : List Char → List Char → List String
  | [], acc => if acc.isEmpty then [] else [String.mk acc.reverse]
  | c :: cs, acc =>
    if c == '\n' then String.mk acc.reverse :: scanLinesAux cs []
    else scanLinesAux cs (c :: acc)

/-- The tokens produced by `bufio.Scanner` with its default line splitter on
`content`: one token per newline-terminated line, without the terminator, and
a final token for trailing bytes after the last newline (none when the content
ends exactly at a newline or is empty). Carriage-return stripping is omitted;
no store file written by this tool contains one. -/
def scanLines (content : String) : List String := scanLinesAux content.data []

/-- Is `!` the first character of `s`? Source: `strings.HasPrefix(splits[1], "!")`. -/
def startsWithBang (s : String) : Bool :=
  match s.data with
  | '!' :: _ => true
  | _ => false

/-- Drop the first character: the source's byte slice `splits[1][1:]`, which
agrees with dropping one character because the marker `!` is one byte. -/
def dropFirst (s : String) : String := String.mk s.data.tail

/-- How reading the store file can fail in-process. -/
inductive ReadError where
  /-- A Go runtime panic: `splits[0]` or `splits[1]` indexed out of range
  because the line has fewer than two fields. Aborts the process; it is not a
  returned error value. -/
  | indexPanic
deriving DecidableEq

/-- The body of `readGomrFile`'s scan loop for one line: split into fields,
take field 0 as the module name and field 1 as the path, decoding a leading
`!` on the path as the synthetic-manifest flag. Fields past the second are
never read. Fewer than two fields panics (see `ReadError.indexPanic`). -/
def parseLine (line : String) : Except ReadError Replace :=
  match fields line with
  | name :: p :: _ =>
    if startsWithBang p then .ok ⟨name, dropFirst p, true⟩
    else .ok ⟨name, p, false⟩
  | _ => .error .indexPanic

/-- The scan loop of `readGomrFile` over the already-split lines, aborting at
the first failing line. -/
def readLinesLoop : List String → Except ReadError (List Replace)
  | [] => .ok []
  | line :: rest =>
    match parseLine line with
    | .error e => .error e
    | .ok r =>
      match readLinesLoop rest with
      | .error e => .error e
      | .ok rs => .ok (r :: rs)

/-- `readGomrFile`, given the bytes of an existing store file (the `os.Open`
error path is out of scope): scan the content line by line and decode each
line into a `Replace`. -/
def readGomrFile (content : String) : Except ReadError (List Replace) :=
  readLinesLoop (scanLines content)

/-- Go `fmt.Fprintln` applied to string operands: the operands joined by
single spaces, plus a newline. `Fprintln` performs no format-verb
substitution, so a `"%s %s"` operand is written literally. -/
def fprintln : List String → String
  | [] => "\n"
  | [s] => s ++ "\n"
  | s :: rest => s ++ " " ++ fprintln rest

/-- `writeGomrFile`, as the file content it produces for `replaces`: for each
record, `fmt.Fprintln(f, "%s %s", r.ModuleName, absPath)` where `absPath`
carries a `!` marker when `AddGoMod` is set. The file is created with
`os.Create`, so prior content is fully replaced by this string. -/
def writeGomrFile : List Replace → String
  | [] => ""
  | r :: rest =>
    let absPath := if r.AddGoMod then "!" ++ r.AbsPath else r.AbsPath
    fprintln ["%s %s", r.ModuleName, absPath] ++ writeGomrFile rest

/-- The bytes `addRun` appends to the store file for one record:
`fmt.Fprintf(file, fmtStr, moduleName, absPath)` with `fmtStr` either
`"%s %s"` or `"%s !%s"`. Neither format string ends in a newline. -/
def appendGomrRecord (moduleName absPath : String) (addGoMod : Bool) : String :=
  if addGoMod then moduleName ++ " !" ++ absPath
  else moduleName ++ " " ++ absPath

/-- One invocation of the external `go` tool through `gomod`: the working
directory handed to `exec.Command` (the empty string leaves `cmd.Dir` unset,
meaning the process's current directory) and the arguments passed to `gomod`
(the source prepends `mod` before executing). -/
structure GomodCall where
  dir : String
  args : List String
deriving DecidableEq

/-- Outcome of one `os.Stat` call, as the source distinguishes them. -/
inductive StatResult where
  /-- error with `os.IsNotExist(err)` true -/
  | notExist
  /-- any other stat error -/
  | statError
  /-- success and the entry is a directory -/
  | isDir
  /-- success and the entry is a regular file -/
  | isFile
deriving DecidableEq

/-- Outcome of `findModuleRoot`'s search loop. -/
inductive FindResult where
  /-- returned `d`: `go.mod` stat succeeded and is not a directory -/
  | found (dir : String)
  /-- broke out of the loop and returned the could-not-find error -/
  | noHostModule
  /-- a stat error other than not-exist was propagated -/
  | statErr
  /-- the loop completed `fuel` iterations without returning -/
  | fuelOut
deriving DecidableEq

/-- The `for` loop of `findModuleRoot`, instrumented with fuel so that its
behaviour over any finite number of iterations can be examined. `stat`
abstracts `os.Stat`; `d` is the directory variable, initially the working
directory. Both the not-exist branch (`continue`) and the is-a-directory
branch (falling off the end of the loop body) repeat the iteration with `d`
unchanged: the source contains no statement moving `d` to its parent.
`filepath.Join(d, "go.mod")` is rendered as slash concatenation. -/
def findModuleRootLoop (stat : String → StatResult) : Nat → String → FindResult
  | 0, _ => .fuelOut
  | fuel + 1, d =>
    if d = "" ∨ d = "/" then .noHostModule
    else
      match stat (d ++ "/go.mod") with
      | .notExist => findModuleRootLoop stat fuel d
      | .statError => .statErr
      | .isDir => findModuleRootLoop stat fuel d
      | .isFile => .found d

/-- ASCII lowering of one character; stands in for Go `strings.ToLower`,
whose non-ASCII cases never arise for module names compared here. -/
def lowerChar (c : Char) : Char :=
  if 65 ≤ c.toNat ∧ c.toNat ≤ 90 then Char.ofNat (c.toNat + 32) else c

/-- Go `strings.ToLower` on ASCII strings. -/
def toLowerStr (s : String) : String := String.mk (s.data.map lowerChar)

/-- The swap-delete loop of `removeRun`: `i` scans the list; on a
case-insensitive name match the matched record is remembered in `deleted`,
the last element is copied into slot `i` and the list is truncated by one,
after which `i` still advances, so the copied-in element is never examined.
Returns the `found` flag, the last `deleted` value and the remaining list. -/
def removeLoop (target : String) (replaces : List Replace) (i : Nat)
    (found : Bool) (deleted : Option Replace) : Bool × Option Replace × List Replace :=
  if h : i < replaces.length then
    let r := replaces.get ⟨i, h⟩
    if toLowerStr r.ModuleName = toLowerStr target then
      removeLoop target
        ((replaces.set i (replaces.getLast (by rintro rfl; simp at h))).dropLast)
        (i + 1) true (some r)
    else
      removeLoop target replaces (i + 1) found deleted
  else
    (found, deleted, replaces)
termination_by replaces.length - i
decreasing_by
  · simp only [List.length_dropLast, List.length_set]
    omega
  · omega

/-- Everything `removeRun` does after its store load succeeds, with external
tool calls and file deletions assumed to succeed. `modRoot` is the directory
`findModuleRoot` returned; the store file it locates there supplied `store`. -/
structure RemoveResult where
  /-- printed could-not-find and returned nil before any external action -/
  notFound : Bool
  calls : List GomodCall
  /-- paths handed to `os.Remove` -/
  fileRemovals : List String
  /-- `some rs` when `writeGomrFile` rewrote the store with `rs` -/
  storeWritten : Option (List Replace)
deriving DecidableEq

/-- `removeRun` on module name `moduleName`: run the swap-delete loop; when
nothing matched, print not-found and return nil (no gomod call, no file
removal, no store rewrite); otherwise drop the replace via
`gomod("", "edit", "-dropreplace=...")` — note the empty directory argument —
remove the synthesized `go.mod`/`go.sum` when the deleted record was
synthetic, and rewrite the store with the remaining records. -/
def removeRun (moduleName : String) (modRoot : String) (store : List Replace) : RemoveResult :=
  match removeLoop moduleName store 0 false none with
  | (false, _, _) => ⟨true, [], [], none⟩
  | (true, deleted, replaces) =>
    let removals :=
      match deleted with
      | some d => if d.AddGoMod then [d.AbsPath ++ "/go.mod", d.AbsPath ++ "/go.sum"] else []
      | none => []
    ⟨false, [⟨"", ["edit", "-dropreplace=" ++ moduleName]⟩], removals, some replaces⟩

/-- The `-replace=name=path` argument built by `fmt.Sprintf` in `addRun` and
`upRun` for one record. -/
def replaceArg (r : Replace) : String :=
  "-replace=" ++ r.ModuleName ++ "=" ++ r.AbsPath

/-- The loop of `upRun`, accumulating gomod calls made so far and the
`replaceArgs` slice. `initOk` abstracts whether `gomod(dir, "init", name)`
succeeds; on a failure the loop aborts with `false` before reaching the
batched edit. -/
def upLoop (initOk : String → String → Bool) :
    List Replace → List GomodCall → List String → List GomodCall × List String × Bool
  | [], calls, replaceArgs => (calls, replaceArgs, true)
  | r :: rest, calls, replaceArgs =>
    if r.AddGoMod then
      if initOk r.AbsPath r.ModuleName then
        upLoop initOk rest (calls ++ [⟨r.AbsPath, ["init", r.ModuleName]⟩])
          (replaceArgs ++ [replaceArg r])
      else
        (calls ++ [⟨r.AbsPath, ["init", r.ModuleName]⟩], replaceArgs, false)
    else
      upLoop initOk rest calls (replaceArgs ++ [replaceArg r])

/-- Outcome of `upRun` after a successful store load: the gomod invocations
made, in order, and whether the operation completed without error. -/
structure UpResult where
  calls : List GomodCall
  ok : Bool
deriving DecidableEq

/-- `upRun` on the loaded records: for each record in order, re-init the
synthetic ones, collect one `-replace` argument per record, then issue a
single batched `gomod("", "edit", replaceArgs...)`. An init failure returns
that error before the batched edit happens. -/
def upRun (initOk : String → String → Bool) (store : List Replace) : UpResult :=
  match upLoop initOk store [] [] with
  | (calls, replaceArgs, true) => ⟨calls ++ [⟨"", "edit" :: replaceArgs⟩], true⟩
  | (calls, _, false) => ⟨calls, false⟩

/-- Everything `downRun` does after its store load succeeds. -/
structure DownResult where
  calls : List GomodCall
  /-- paths handed to `os.Remove` -/
  fileRemovals : List String
  /-- `some rs` when the store file was rewritten; `downRun`'s body contains
  no `writeGomrFile` (or any other store-file write or delete) -/
  storeWritten : Option (List Replace)
deriving DecidableEq

/-- The loop of `downRun`: delete the synthesized `go.mod` of each synthetic
record and collect one `-dropreplace` argument per record. -/
def downLoop : List Replace → List String × List String
  | [] => ([], [])
  | r :: rest =>
    let (removals, args) := downLoop rest
    (if r.AddGoMod then (r.AbsPath ++ "/go.mod") :: removals else removals,
     ("-dropreplace=" ++ r.ModuleName) :: args)

/-- `downRun` on the loaded records: run `downLoop`, then issue one batched
`gomod("", "edit", replaceArgs...)`. The store file is only read. -/
def downRun (store : List Replace) : DownResult :=
  let (removals, replaceArgs) := downLoop store
  ⟨[⟨"", "edit" :: replaceArgs⟩], removals, none⟩

/-- The records the store file holds after `downRun`, starting from `store`:
whatever `downRun` wrote, or the unchanged `store` when it wrote nothing. -/
def storeAfterDown (store : List Replace) : List Replace :=
  match (downRun store).storeWritten with
  | some s => s
  | none => store

/-- The `-replace` arguments `upRun` collects for a store, in order. -/
def replaceArgsOf (store : List Replace) : List String := store.map replaceArg

/-- The init invocations `upRun` makes for a store, in order: one per
synthetic record. -/
def initCallsOf (store : List Replace) : List GomodCall :=
  (store.filter (·.AddGoMod)).map (fun r => ⟨r.AbsPath, ["init", r.ModuleName]⟩)

/-- A gomod invocation of the `init` form, as opposed to an `edit`. -/
def isInitCall (c : GomodCall) : Prop :=
  ∃ p n, c = ⟨p, ["init", n]⟩

/-- How `addRun` can fail in the modelled portion. -/
inductive AddError where
  /-- the resolved path does not exist on disk -/
  | pathNotFound (path : String)
  /-- some other stat error was propagated -/
  | statErr
  /-- `findModuleRoot` failed -/
  | noHostModule
deriving DecidableEq

/-- Everything `addRun` does, with external tool calls assumed to succeed. -/
structure AddResult where
  calls : List GomodCall
  /-- bytes appended to the store file by the `O_APPEND` write, when reached -/
  appended : Option String
  err : Option AddError
deriving DecidableEq

/-- `addRun`: `gopath` is the `GOPATH` environment variable, `stat` abstracts
`os.Stat`, `modRootRes` is `findModuleRoot`'s outcome, and `pathArg` the
optional second CLI argument. The path defaults to
`filepath.Join(GOPATH, "src", moduleName)` when absent or empty, rendered as
slash concatenation (exact for the cleaned absolute paths used here). Checks
happen in source order: path existence, `go.mod` presence at the path,
module-root discovery, optional `go mod init`, the `-replace` edit at the
module root, then the store append. -/
def addRun (gopath : String) (stat : String → StatResult)
    (modRootRes : Except Unit String) (moduleName : String)
    (pathArg : Option String) : AddResult :=
  let absPath :=
    match pathArg with
    | some p => if p = "" then gopath ++ "/src/" ++ moduleName else p
    | none => gopath ++ "/src/" ++ moduleName
  match stat absPath with
  | .notExist => ⟨[], none, some (.pathNotFound absPath)⟩
  | .statError => ⟨[], none, some .statErr⟩
  | _ =>
    match stat (absPath ++ "/go.mod") with
    | .statError => ⟨[], none, some .statErr⟩
    | st =>
      let addGoMod := match st with | .notExist => true | _ => false
      match modRootRes with
      | .error _ => ⟨[], none, some .noHostModule⟩
      | .ok modRoot =>
        let initCalls : List GomodCall :=
          if addGoMod then [⟨absPath, ["init", moduleName]⟩] else []
        ⟨initCalls ++ [⟨modRoot, ["edit", replaceArg ⟨moduleName, absPath, addGoMod⟩]⟩],
         some (appendGomrRecord moduleName absPath addGoMod), none⟩

end Gomr

namespace Gomr

/-! Helper lemmas about the swap-delete loop of `removeRun`. -/

/-- Past the end of the list the loop returns its accumulated state. -/
theorem removeLoop_of_le (t : String) (l : List Replace) (i : Nat) (f : Bool)
    (d : Option Replace) (h : l.length ≤ i) :
    removeLoop t l i f d = (f, d, l) := by
  rw [removeLoop]
  simp [Nat.not_lt.mpr h]

/-- The element at the split point of `junk ++ r :: rest`. -/
theorem getElem_append_length (junk : List Replace) (r : Replace) (rest : List Replace)
    (h : junk.length < (junk ++ r :: rest).length) :
    (junk ++ r :: rest)[junk.length] = r := by
  rw [List.getElem_append_right (le_refl _)]
  simp

/-- A non-matching element only advances the index. -/
theorem removeLoop_cons_nomatch (t : String) (junk : List Replace) (r : Replace)
    (rest : List Replace) (f : Bool) (d : Option Replace)
    (hne : toLowerStr r.ModuleName ≠ toLowerStr t) :
    removeLoop t (junk ++ r :: rest) junk.length f d
      = removeLoop t (junk ++ r :: rest) (junk.length + 1) f d := by
  rw [removeLoop]
  have hlt : junk.length < (junk ++ r :: rest).length := by simp
  rw [dif_pos hlt]
  simp only [List.get_eq_getElem, getElem_append_length junk r rest hlt]
  rw [if_neg hne]

/-- A run over elements that all fail the match leaves the state untouched. -/
theorem removeLoop_no_match (t : String) :
    ∀ (rest junk : List Replace) (f : Bool) (d : Option Replace),
    (∀ r ∈ rest, toLowerStr r.ModuleName ≠ toLowerStr t) →
    removeLoop t (junk ++ rest) junk.length f d = (f, d, junk ++ rest) := by
  intro rest
  induction rest with
  | nil =>
    intro junk f d _
    exact removeLoop_of_le t (junk ++ []) junk.length f d (by simp)
  | cons r rest' ih =>
    intro junk f d hnm
    rw [removeLoop_cons_nomatch t junk r rest' f d (hnm r (by simp))]
    have h2 := ih (junk ++ [r]) f d (fun x hx => hnm x (by simp [hx]))
    simpa [List.append_assoc] using h2

/-- A matching element records itself in `deleted`, copies the last element
into its slot, truncates, and advances the index. -/
theorem removeLoop_cons_match (t : String) (junk : List Replace) (m : Replace)
    (post : List Replace) (f : Bool) (d : Option Replace)
    (hm : toLowerStr m.ModuleName = toLowerStr t) :
    removeLoop t (junk ++ m :: post) junk.length f d
      = removeLoop t
          (((junk ++ m :: post).set junk.length
              ((junk ++ m :: post).getLast (by simp))).dropLast)
          (junk.length + 1) true (some m) := by
  rw [removeLoop]
  have hlt : junk.length < (junk ++ m :: post).length := by simp
  rw [dif_pos hlt]
  simp only [List.get_eq_getElem, getElem_append_length junk m post hlt]
  rw [if_pos hm]

/-- Setting the slot at the split point of `junk ++ a :: rest`. -/
theorem set_append_length (junk : List Replace) (a x : Replace) (rest : List Replace) :
    (junk ++ a :: rest).set junk.length x = junk ++ x :: rest := by
  induction junk with
  | nil => rfl
  | cons y junk ih => simp [List.set, ih]

/-- Running the loop over a list holding exactly one match: the match is
reported in `deleted` and, up to the reordering done by the swap, exactly
that one element has been removed. `junk` is the already-scanned portion. -/
theorem removeLoop_single_match_aux (t : String) :
    ∀ (pre junk : List Replace) (m : Replace) (post : List Replace) (f : Bool)
      (d : Option Replace),
    toLowerStr m.ModuleName = toLowerStr t →
    (∀ r ∈ pre, toLowerStr r.ModuleName ≠ toLowerStr t) →
    (∀ r ∈ post, toLowerStr r.ModuleName ≠ toLowerStr t) →
    ∃ res, removeLoop t (junk ++ pre ++ m :: post) junk.length f d = (true, some m, res) ∧
      res.Perm ((junk ++ pre) ++ post) := by
  intro pre
  induction pre with
  | nil =>
    intro junk m post f d hm _ hpost
    simp only [List.append_nil]
    rw [removeLoop_cons_match t junk m post f d hm]
    rcases eq_or_ne post [] with rfl | hne
    · have hlast : (junk ++ [m]).getLast (by simp) = m := by
        rw [List.getLast_append' junk [m] (by simp)]
        rfl
      rw [hlast, set_append_length]
      have hdl : (junk ++ [m]).dropLast = junk := by simp
      rw [hdl, removeLoop_of_le t junk (junk.length + 1) true (some m) (by omega)]
      simp
    · have hlast : (junk ++ m :: post).getLast (by simp) = post.getLast hne := by
        rw [List.getLast_append' junk (m :: post) (by simp), List.getLast_cons hne]
      rw [hlast, set_append_length]
      rw [show junk ++ post.getLast hne :: post = (junk ++ [post.getLast hne]) ++ post by simp]
      rw [List.dropLast_append_of_ne_nil _ hne]
      have hrun := removeLoop_no_match t post.dropLast (junk ++ [post.getLast hne]) true (some m)
        (fun x hx => hpost x (List.dropLast_subset _ hx))
      rw [show (junk ++ [post.getLast hne]).length = junk.length + 1 by simp] at hrun
      refine ⟨(junk ++ [post.getLast hne]) ++ post.dropLast, hrun, ?_⟩
      have hsplit : post.dropLast ++ [post.getLast hne] = post := List.dropLast_append_getLast hne
      have hperm1 : List.Perm ([post.getLast hne] ++ post.dropLast)
          (post.dropLast ++ [post.getLast hne]) := List.perm_append_comm
      have hperm2 := List.Perm.append_left junk hperm1
      rw [hsplit] at hperm2
      simpa using hperm2
  | cons r pre' ih =>
    intro junk m post f d hm hpre hpost
    rw [show junk ++ (r :: pre') ++ m :: post = junk ++ r :: (pre' ++ m :: post) by simp]
    rw [removeLoop_cons_nomatch t junk r (pre' ++ m :: post) f d (hpre r (by simp))]
    obtain ⟨res, heq, hperm⟩ := ih (junk ++ [r]) m post f d hm
      (fun x hx => hpre x (by simp [hx])) hpost
    refine ⟨res, ?_, ?_⟩
    · rw [show junk ++ r :: (pre' ++ m :: post) = (junk ++ [r]) ++ pre' ++ m :: post by simp]
      rw [show junk.length + 1 = (junk ++ [r]).length by simp]
      exact heq
    · have hshape : ((junk ++ [r]) ++ pre') ++ post = (junk ++ r :: pre') ++ post := by simp
      exact hshape ▸ hperm

/-! Helper lemmas about `upLoop` and `downLoop`. -/

/-- When every synthetic record's init succeeds, `upLoop` appends one init
call per synthetic record and one `-replace` argument per record, in order,
and reports success. -/
theorem upLoop_all_ok (initOk : String → String → Bool) :
    ∀ (store : List Replace) (calls : List GomodCall) (replaceArgs : List String),
    (∀ r ∈ store, r.AddGoMod = true → initOk r.AbsPath r.ModuleName = true) →
    upLoop initOk store calls replaceArgs
      = (calls ++ initCallsOf store, replaceArgs ++ replaceArgsOf store, true) := by
  intro store
  induction store with
  | nil =>
    intro calls args _
    simp [upLoop, initCallsOf, replaceArgsOf]
  | cons r rest ih =>
    intro calls args h
    by_cases hr : r.AddGoMod = true
    · have hinit := h r (by simp) hr
      rw [upLoop, if_pos hr, if_pos hinit]
      rw [ih _ _ (fun x hx hs => h x (by simp [hx]) hs)]
      simp [initCallsOf, replaceArgsOf, hr]
    · rw [upLoop, if_neg hr]
      rw [ih _ _ (fun x hx hs => h x (by simp [hx]) hs)]
      have hrf : r.AddGoMod = false := by
        cases hb : r.AddGoMod
        · rfl
        · exact absurd hb hr
      simp [initCallsOf, replaceArgsOf, hrf]

/-- When some record's init fails, `upLoop` reports failure and its calls
are init calls only — the batched edit is never among them. -/
theorem upLoop_abort (initOk : String → String → Bool) :
    ∀ (store : List Replace) (calls : List GomodCall) (replaceArgs : List String),
    (∀ c ∈ calls, isInitCall c) →
    (∃ r ∈ store, r.AddGoMod = true ∧ initOk r.AbsPath r.ModuleName = false) →
    (upLoop initOk store calls replaceArgs).2.2 = false ∧
      ∀ c ∈ (upLoop initOk store calls replaceArgs).1, isInitCall c := by
  intro store
  induction store with
  | nil =>
    rintro calls args hcalls ⟨r, hr, -⟩
    cases hr
  | cons r rest ih =>
    rintro calls args hcalls ⟨r0, hr0, hsyn, hfail⟩
    have hcalls' : ∀ c ∈ calls ++ [(⟨r.AbsPath, ["init", r.ModuleName]⟩ : GomodCall)],
        isInitCall c := by
      intro c hc
      rcases List.mem_append.mp hc with h | h
      · exact hcalls c h
      · simp only [List.mem_singleton] at h
        exact ⟨r.AbsPath, r.ModuleName, h⟩
    by_cases hr : r.AddGoMod = true
    · by_cases hi : initOk r.AbsPath r.ModuleName = true
      · have hr0rest : r0 ∈ rest := by
          rcases List.mem_cons.mp hr0 with rfl | h
          · rw [hi] at hfail
            cases hfail
          · exact h
        have := ih (calls ++ [⟨r.AbsPath, ["init", r.ModuleName]⟩]) (args ++ [replaceArg r])
          hcalls' ⟨r0, hr0rest, hsyn, hfail⟩
        rw [upLoop, if_pos hr, if_pos hi]
        exact this
      · rw [upLoop, if_pos hr, if_neg hi]
        exact ⟨rfl, hcalls'⟩
    · have hr0rest : r0 ∈ rest := by
        rcases List.mem_cons.mp hr0 with rfl | h
        · exact absurd hsyn hr
        · exact h
      have := ih calls (args ++ [replaceArg r]) hcalls ⟨r0, hr0rest, hsyn, hfail⟩
      rw [upLoop, if_neg hr]
      exact this

/-- `downLoop` collects one `go.mod` removal per synthetic record and one
`-dropreplace` argument per record, in order. -/
theorem downLoop_eq (store : List Replace) :
    downLoop store = ((store.filter (·.AddGoMod)).map (fun r => r.AbsPath ++ "/go.mod"),
      store.map (fun r => "-dropreplace=" ++ r.ModuleName)) := by
  induction store with
  | nil => rfl
  | cons r rest ih =>
    by_cases hr : r.AddGoMod = true <;> simp [downLoop, ih, hr]

/-! The claims. -/

/-- Claim C1: the save/load round-trip fails on the code. `writeGomrFile`
passes its format string to `fmt.Fprintln`, which does no formatting, so the
record `a /x/a` is written as the line `%s %s a /x/a`; reading it back yields
the record named `%s` with path `%s`, not the original. -/
theorem save_load_roundtrip_fails :
    readGomrFile (writeGomrFile [⟨"a", "/x/a", false⟩]) = .ok [⟨"%s", "%s", false⟩] ∧
    ([⟨"%s", "%s", false⟩] : List Replace) ≠ [⟨"a", "/x/a", false⟩] :=
  ⟨rfl, by decide⟩

/-- Claim C2: the search loop of `findModuleRoot` never advances to the
parent directory. From the non-root directory `/home/user` whose `go.mod`
stat always reports not-exist, the loop runs forever: it exhausts any amount
of fuel without returning. -/
theorem findModuleRoot_never_advances :
    ∀ fuel, findModuleRootLoop (fun _ => StatResult.notExist) fuel "/home/user"
      = FindResult.fuelOut := by
  intro fuel
  induction fuel with
  | zero => rfl
  | succ n ih =>
    rw [findModuleRootLoop, if_neg (by decide)]
    exact ih

/-- Claim C3, counterexample: on a store holding two records named `foo`,
`removeRun "foo"` rewrites the store with one `foo` record still in it — the
swap-delete pass skips the element copied into the already-visited slot — so
it does not delete all case-insensitive matches. -/
theorem remove_duplicates_counterexample :
    (removeRun "foo" "/m" [⟨"foo", "/a", false⟩, ⟨"foo", "/b", false⟩]).storeWritten
      = some [⟨"foo", "/b", false⟩] ∧
    toLowerStr (Replace.mk "foo" "/b" false).ModuleName = toLowerStr "foo" := by
  constructor
  · simp [removeRun, removeLoop, List.getLast]
  · rfl

/-- Claim C3 (amended): when no record matches the name case-insensitively,
`removeRun` reports not-found and returns successfully with no gomod call, no
file removal and no store rewrite; when exactly one record matches, it issues
the `-dropreplace` edit, removes the synthesized files if that record was
synthetic, and rewrites the store with, up to the reordering done by the
swap-delete, exactly the other records. With several matching duplicates some
may survive (see the counterexample). -/
theorem remove_matches_amended (name modRoot : String) (store : List Replace) :
    ((∀ r ∈ store, toLowerStr r.ModuleName ≠ toLowerStr name) →
      removeRun name modRoot store = ⟨true, [], [], none⟩) ∧
    (∀ pre m post, store = pre ++ m :: post →
      toLowerStr m.ModuleName = toLowerStr name →
      (∀ r ∈ pre, toLowerStr r.ModuleName ≠ toLowerStr name) →
      (∀ r ∈ post, toLowerStr r.ModuleName ≠ toLowerStr name) →
      ∃ res, removeRun name modRoot store
          = ⟨false, [⟨"", ["edit", "-dropreplace=" ++ name]⟩],
             if m.AddGoMod then [m.AbsPath ++ "/go.mod", m.AbsPath ++ "/go.sum"] else [],
             some res⟩ ∧
        res.Perm (pre ++ post)) := by
  constructor
  · intro h
    have h0 := removeLoop_no_match name store [] false none h
    simp only [List.nil_append, List.length_nil] at h0
    simp [removeRun, h0]
  · rintro pre m post rfl hm hpre hpost
    obtain ⟨res, heq, hperm⟩ := removeLoop_single_match_aux name pre [] m post false none
      hm hpre hpost
    simp only [List.nil_append, List.length_nil] at heq hperm
    refine ⟨res, ?_, hperm⟩
    simp [removeRun, heq]

/-- Witness for C3's amended claim: a miss leaves everything untouched, and
a single case-insensitive match (`Foo` against stored `foo`) removes exactly
that record. -/
theorem remove_matches_amended_witness :
    removeRun "foo" "/m" [⟨"bar", "/b", false⟩] = ⟨true, [], [], none⟩ ∧
    ∃ res, removeRun "Foo" "/m" [⟨"bar", "/b", false⟩, ⟨"foo", "/f", true⟩]
        = ⟨false, [⟨"", ["edit", "-dropreplace=Foo"]⟩],
           ["/f/go.mod", "/f/go.sum"], some res⟩ ∧
      res.Perm [⟨"bar", "/b", false⟩] := by
  constructor
  · exact (remove_matches_amended "foo" "/m" _).1 (by decide)
  · have h := (remove_matches_amended "Foo" "/m"
        [⟨"bar", "/b", false⟩, ⟨"foo", "/f", true⟩]).2
      [⟨"bar", "/b", false⟩] ⟨"foo", "/f", true⟩ [] rfl (by decide) (by decide) (by decide)
    simpa using h

/-- Claim C4: the store-file encodings are broken in the code. `save` writes
the line `%s %s a /x` for the record `a /x` (the `Fprintln` format string is
emitted literally, making four whitespace fields, not two), and the append
done by `add` writes no newline, so two consecutive adds produce the single
line `a /xb /y` rather than two lines. -/
theorem save_append_encoding_fails :
    writeGomrFile [⟨"a", "/x", false⟩] = "%s %s a /x\n" ∧
    fields "%s %s a /x" = ["%s", "%s", "a", "/x"] ∧
    scanLines (appendGomrRecord "a" "/x" false ++ appendGomrRecord "b" "/y" false)
      = ["a /xb /y"] :=
  ⟨rfl, by decide, rfl⟩

/-- Claim C5: a store-file line with fewer than two whitespace fields does
not produce a returned parse error — it makes `readGomrFile` index
`splits[1]` out of range, a Go runtime panic (`ReadError.indexPanic` in this
embedding), both on a file holding only an empty line and on a file whose
second line is empty. -/
theorem load_short_line_panics :
    readGomrFile "\n" = .error .indexPanic ∧
    readGomrFile "a /x\n\n" = .error .indexPanic :=
  ⟨rfl, rfl⟩

/-- Claim C6: on the store `a /x/a` (plain) and `b /y/b` (synthetic), `upRun`
calls init exactly once — for `b`, before the edit — and then issues exactly
one batched edit carrying both `-replace=a=/x/a` and `-replace=b=/y/b`; and
for any store and any init behaviour, a failing init makes `upRun` abort with
only init calls issued, so the batched edit never happens. -/
theorem up_batched_edit :
    upRun (fun _ _ => true) [⟨"a", "/x/a", false⟩, ⟨"b", "/y/b", true⟩]
      = ⟨[⟨"/y/b", ["init", "b"]⟩,
          ⟨"", ["edit", "-replace=a=/x/a", "-replace=b=/y/b"]⟩], true⟩ ∧
    ∀ (initOk : String → String → Bool) (store : List Replace),
      (∃ r ∈ store, r.AddGoMod = true ∧ initOk r.AbsPath r.ModuleName = false) →
      (upRun initOk store).ok = false ∧ ∀ c ∈ (upRun initOk store).calls, isInitCall c := by
  constructor
  · rfl
  · intro initOk store hex
    have h := upLoop_abort initOk store [] [] (fun c hc => absurd hc (List.not_mem_nil c)) hex
    rcases hres : upLoop initOk store [] [] with ⟨calls, args, ok⟩
    rw [hres] at h
    cases ok
    · simpa [upRun, hres] using h
    · exact absurd h.1 (by simp)

/-- Witness for C6's abort clause: a store whose only record is synthetic
with an always-failing init makes `upRun` fail. -/
theorem up_batched_edit_witness :
    (upRun (fun _ _ => false) [⟨"b", "/y/b", true⟩]).ok = false :=
  (up_batched_edit.2 (fun _ _ => false) [⟨"b", "/y/b", true⟩]
    ⟨⟨"b", "/y/b", true⟩, by simp, rfl, rfl⟩).1

/-- Claim C7: `downRun` never writes or deletes the store file, so the store
after `down` is the store before it, and a subsequent `upRun` (inits
succeeding) issues its batched edit with exactly the `-replace=name=path`
arguments of the original store. -/
theorem down_then_up_same_replaces (store : List Replace) :
    (downRun store).storeWritten = none ∧
    storeAfterDown store = store ∧
    upRun (fun _ _ => true) (storeAfterDown store)
      = ⟨initCallsOf store ++ [⟨"", "edit" :: replaceArgsOf store⟩], true⟩ := by
  refine ⟨rfl, rfl, ?_⟩
  show upRun (fun _ _ => true) store = _
  have h := upLoop_all_ok (fun _ _ => true) store [] [] (fun r _ _ => rfl)
  simp only [List.nil_append] at h
  simp [upRun, h]

/-- Claim C8, counterexample: with host module root `/hostroot`, the
`-dropreplace` edit issued by `removeRun` runs with working directory `""`
(the process's current directory), not the module root. -/
theorem remove_dropreplace_dir_counterexample :
    (removeRun "foo" "/hostroot" [⟨"foo", "/p", false⟩]).calls
      = [⟨"", ["edit", "-dropreplace=foo"]⟩] ∧
    ("" : String) ≠ "/hostroot" := by
  constructor
  · simp [removeRun, removeLoop, List.getLast]
  · decide

/-- Claim C8 (amended): every gomod invocation `removeRun` makes is the
`-dropreplace` edit with an empty working directory — which the gateway
treats as the process's current directory — never the located module root. -/
theorem remove_edit_uses_empty_dir (name modRoot : String) (store : List Replace)
    (c : GomodCall) (hc : c ∈ (removeRun name modRoot store).calls) :
    c.dir = "" ∧ c.args = ["edit", "-dropreplace=" ++ name] := by
  rcases hres : removeLoop name store 0 false none with ⟨fnd, del, rem⟩
  rw [removeRun, hres] at hc
  cases fnd
  · exact absurd hc (List.not_mem_nil c)
  · simp only [List.mem_singleton] at hc
    subst hc
    exact ⟨rfl, rfl⟩

/-- Witness for C8's amended claim at a concrete store. -/
theorem remove_edit_uses_empty_dir_witness :
    (⟨"", ["edit", "-dropreplace=foo"]⟩ : GomodCall).dir = "" ∧
    (⟨"", ["edit", "-dropreplace=foo"]⟩ : GomodCall).args = ["edit", "-dropreplace=foo"] :=
  remove_edit_uses_empty_dir "foo" "/m" [⟨"foo", "/p", false⟩]
    ⟨"", ["edit", "-dropreplace=foo"]⟩
    (by simp [removeRun, removeLoop, List.getLast])

/-- Claim C9: with no explicit path, `addRun` resolves the path to
`GOPATH ++ /src/ ++ name`; when the resolved (or the explicitly given) path
does not exist, it fails with path-not-found before any gomod invocation and
before anything is appended to the store. -/
theorem add_missing_path_aborts (gopath moduleName : String)
    (stat : String → StatResult) (modRootRes : Except Unit String)
    (h : stat (gopath ++ "/src/" ++ moduleName) = .notExist) :
    addRun gopath stat modRootRes moduleName none
      = ⟨[], none, some (.pathNotFound (gopath ++ "/src/" ++ moduleName))⟩ ∧
    ∀ p, p ≠ "" → stat p = .notExist →
      addRun gopath stat modRootRes moduleName (some p)
        = ⟨[], none, some (.pathNotFound p)⟩ := by
  constructor
  · simp [addRun, h]
  · intro p hp hps
    simp [addRun, hp, hps]

/-- Witness for C9 at workspace root `/ws` and package `pkg`: the resolved
path is `/ws/src/pkg` and the operation aborts with path-not-found. -/
theorem add_missing_path_aborts_witness :
    addRun "/ws" (fun _ => StatResult.notExist) (Except.ok "/host") "pkg" none
      = ⟨[], none, some (.pathNotFound "/ws/src/pkg")⟩ :=
  (add_missing_path_aborts "/ws" "pkg" (fun _ => StatResult.notExist)
    (Except.ok "/host") rfl).1

/-- Claim C10: a line with more than two whitespace fields parses
successfully into the record built from the first two fields alone — the
result does not depend on the extra fields — and loading such a line yields
that record. -/
theorem load_ignores_extra_fields (line n p x : String) (rest : List String)
    (h : fields line = n :: p :: x :: rest) :
    parseLine line
      = .ok ⟨n, if startsWithBang p then dropFirst p else p, startsWithBang p⟩ ∧
    readLinesLoop [line]
      = .ok [⟨n, if startsWithBang p then dropFirst p else p, startsWithBang p⟩] := by
  have h1 : parseLine line
      = .ok ⟨n, if startsWithBang p then dropFirst p else p, startsWithBang p⟩ := by
    unfold parseLine
    rw [h]
    by_cases hb : startsWithBang p = true <;> simp [hb]
  exact ⟨h1, by simp [readLinesLoop, h1]⟩

/-- Witness for C10 on the line `a /x extra junk`. -/
theorem load_ignores_extra_fields_witness :
    parseLine "a /x extra junk" = .ok ⟨"a", "/x", false⟩ ∧
    readLinesLoop ["a /x extra junk"] = .ok [⟨"a", "/x", false⟩] := by
  have h := load_ignores_extra_fields "a /x extra junk" "a" "/x" "extra" ["junk"] (by decide)
  rw [show startsWithBang "/x" = false from rfl] at h
  simpa using h

end Gomr
